import Mathlib

/-!
Verification of the research-agent claim pipeline
(`src/agents/research_agent/research_agent.py`).

Strings are modelled as `List Char` (Python `str` is a sequence of
characters; Python `len`, slicing and `in` correspond to `List.length`,
`take`/`drop` and infix on the character list).  Python floats are
idealised as rationals `ℚ`; `round(x, 3)` and `f"{x:.2f}"` are modelled
with round-half-to-even on the exact value.  `json.loads` is a library
call; functions that invoke it take the parse outcome as an explicit
oracle argument (`Str → Option JDict`, `none` = "raises or is not a
dict"), and a small executable `miniJsonParse` covering flat JSON
objects instantiates the oracle in concrete computations.
-/

namespace ResearchAgent

/-- Python strings as lists of characters. -/
abbrev Str := List Char

/-- The backtick character (written via its code point). -/
def backtick : Char := Char.ofNat 96

/-- The left brace character. -/
def lbrace : Char := Char.ofNat 123

/-- The right brace character. -/
def rbrace : Char := Char.ofNat 125

/-- Python `str.strip()` / regex `\s` whitespace set (ASCII part). -/
def isPySpace (c : Char) : Bool :=
  c = ' ' || c = '\t' || c = '\n' || c = '\x0d' || c = '\x0b' || c = '\x0c'

/-- Python `str.strip()`: drop whitespace from both ends. -/
def pyStrip (l : Str) : Str :=
  ((l.dropWhile isPySpace).reverse.dropWhile isPySpace).reverse

/-- Python `str.lower()` (ASCII case folding). -/
def lowerStr (l : Str) : Str := l.map Char.toLower

/-- `re.sub(r"\s+", " ", s)`: collapse whitespace runs to single spaces. -/
def collapseWsGo : Nat → Str → Str
  | 0, l => l
  | _ + 1, [] => []
  | fuel + 1, c :: rest =>
    if isPySpace c then ' ' :: collapseWsGo fuel (rest.dropWhile isPySpace)
    else c :: collapseWsGo fuel rest

def collapseWs (l : Str) : Str := collapseWsGo (l.length + 1) l

/-- Decimal digit `d` (`d < 10`) as a character. -/
def digitChar (d : Nat) : Char := Char.ofNat (48 + d)

/-- Decimal rendering of a natural number. -/
def natStrGo : Nat → Nat → Str
  | 0, _ => []
  | fuel + 1, n =>
    if n < 10 then [digitChar n]
    else natStrGo fuel (n / 10) ++ [digitChar (n % 10)]

def natStr (n : Nat) : Str := natStrGo (n + 1) n

/-- Decimal rendering of an integer (Python `str(int)`). -/
def intStr (z : ℤ) : Str :=
  if z < 0 then '-' :: natStr z.natAbs else natStr z.natAbs

/-- Round half to even, the rounding used by Python `round` and `format`. -/
def roundHalfEven (x : ℚ) : ℤ :=
  let f := ⌊x⌋
  let r := x - f
  if r < 1/2 then f
  else if 1/2 < r then f + 1
  else if f % 2 = 0 then f else f + 1

/-- Python `round(x, 3)` on the idealised rational value. -/
def pyRound3 (x : ℚ) : ℚ := (roundHalfEven (x * 1000) : ℚ) / 1000

/-- Python `f"{x:.2f}"` on the idealised rational value. -/
def format2 (x : ℚ) : Str :=
  let z := roundHalfEven (x * 100)
  let n := z.natAbs
  let body := natStr (n / 100) ++ '.' ::
    (if n % 100 < 10 then '0' :: natStr (n % 100) else natStr (n % 100))
  if z < 0 then '-' :: body else body

/-- Digits after the decimal point of a nonnegative rational, up to
`fuel` places, trailing zeros omitted (helper for `pyFloatStr`). -/
def fracDigitsGo : Nat → ℚ → Str
  | 0, _ => []
  | fuel + 1, r =>
    if r = 0 then []
    else
      let d := ⌊r * 10⌋.toNat
      digitChar d :: fracDigitsGo fuel (r * 10 - ⌊r * 10⌋)

/-- Python `str(float)`, simplified decimal rendering. -/
def pyFloatStr (q : ℚ) : Str :=
  let render := fun (p : ℚ) =>
    let ip := ⌊p⌋.toNat
    let frac := fracDigitsGo 17 (p - ⌊p⌋)
    natStr ip ++ '.' :: (if frac = [] then ['0'] else frac)
  if q < 0 then '-' :: render (-q) else render q

/-- Value of a list of decimal digit characters. -/
def digitsVal (l : Str) : Nat := l.foldl (fun a c => a * 10 + (c.toNat - 48)) 0

/-- Python `float(string)`: optional sign, digits with an optional
fractional part, surrounding whitespace allowed; `none` when the text
is not such a numeral (the call raises). -/
def pyFloatParse (s : Str) : Option ℚ :=
  let t := pyStrip s
  let core := fun (u : Str) =>
    let ds := u.takeWhile Char.isDigit
    let rest := u.drop ds.length
    match rest with
    | [] => if ds = [] then none else some ((digitsVal ds : ℚ))
    | '.' :: fs =>
      let fds := fs.takeWhile Char.isDigit
      if fs.drop fds.length ≠ [] then none
      else if ds = [] && fds = [] then none
      else some ((digitsVal ds : ℚ) + (digitsVal fds : ℚ) / (10 : ℚ) ^ fds.length)
    | _ => none
  match t with
  | '-' :: u => (core u).map (fun q => -q)
  | '+' :: u => core u
  | u => core u

/-- `"; ".join(parts)`. -/
def joinSemi : List Str → Str
  | [] => []
  | [p] => p
  | p :: rest => p ++ ';' :: ' ' :: joinSemi rest

/-! ### JSON values as consumed by the agent

`json.loads` may return arbitrary structures; the agent only reads the
keys `support`, `confidence`, `reason`, `evidence` and applies `str`,
truthiness, and `float` to the values.  `JVal` records exactly those
observations; `jother` stands for lists/objects (whose `float`
conversion raises). -/

inductive JVal where
  | jnull
  | jbool (b : Bool)
  | jint (z : ℤ)
  | jnum (q : ℚ)
  | jstr (s : Str)
  | jother (repr : Str) (truthy : Bool)
deriving Repr, DecidableEq

/-- Python `str(value)`. -/
def JVal.pyStr : JVal → Str
  | .jnull => "None".data
  | .jbool b => if b then "True".data else "False".data
  | .jint z => intStr z
  | .jnum q => pyFloatStr q
  | .jstr s => s
  | .jother r _ => r

/-- Python truthiness. -/
def JVal.truthy : JVal → Bool
  | .jnull => false
  | .jbool b => b
  | .jint z => z ≠ 0
  | .jnum q => q ≠ 0
  | .jstr s => s ≠ []
  | .jother _ t => t

/-- Python `float(value)`: `none` when the conversion raises. -/
def JVal.toFloat : JVal → Option ℚ
  | .jnull => none
  | .jbool b => some (if b then 1 else 0)
  | .jint z => some (z : ℚ)
  | .jnum q => some q
  | .jstr s => pyFloatParse s
  | .jother _ _ => none

/-- A parsed JSON object, restricted to the four keys the agent reads.
A field is `none` when the key is absent; a present-but-`null` value is
`some .jnull` (Python `dict.get` with a default distinguishes these). -/
structure JDict where
  support : Option JVal
  confidence : Option JVal
  reason : Option JVal
  evidence : Option JVal
deriving Repr, DecidableEq

/-- `j.get(key)` with no default: absent and `null` both give `None`. -/
def getOpt : Option JVal → Option JVal
  | some .jnull => none
  | x => x

/-! ### `re.sub(r"```[a-zA-Z]*\n([\s\S]*?)```", r"\1", s)`

The regex scans left to right; at a match (three backticks, a run of
letters, a newline, then lazily up to the next three backticks) the
fenced region is replaced by its body; otherwise the scan advances one
character. -/

/-- Does the text start with three backticks? -/
def isTripleBT : Str → Bool
  | c1 :: c2 :: c3 :: _ => c1 = backtick && c2 = backtick && c3 = backtick
  | _ => false

/-- Try to read a fence opener at the head of `l`; on success return
the text after the opener's newline. -/
def fenceOpen (l : Str) : Option Str :=
  if isTripleBT l then
    let u := (l.drop 3).dropWhile Char.isAlpha
    if u ≠ [] ∧ u.headI = '\n' then some u.tail else none
  else none

/-- Find the earliest triple backtick; return the text before it and
the text after it. -/
def findClose : Str → Option (Str × Str)
  | [] => none
  | c :: rest =>
    if isTripleBT (c :: rest) then some ([], rest.drop 2)
    else (findClose rest).map (fun p => (c :: p.1, p.2))

def stripFencesGo : Nat → Str → Str
  | 0, l => l
  | _ + 1, [] => []
  | fuel + 1, c :: rest =>
    match fenceOpen (c :: rest) with
    | some body =>
      match findClose body with
      | some (content, after) => content ++ stripFencesGo fuel after
      | none => c :: stripFencesGo fuel rest
    | none => c :: stripFencesGo fuel rest

def stripFences (l : Str) : Str := stripFencesGo l.length l

/-! ### `re.search(r"\{[\s\S]*\}", s)` and `re.sub(r"\{.*\}", "", s)`

A match runs from the first `{` to the last `}` (the starred part is
greedy), and exists exactly when some `}` follows the first `{`. -/

/-- Split `l` at the last occurrence of `c`: `l = a ++ [c] ++ b` with
`c ∉ b`. -/
def lastSplit (c : Char) (l : Str) : Option (Str × Str) :=
  let post := (l.reverse.takeWhile (· ≠ c)).reverse
  if l.contains c then some (l.take (l.length - post.length - 1), post) else none

/-- Decompose `s` as `pre ++ block ++ post` where `block` runs from the
first `{` to the last `}` (the regex match), if such a block exists. -/
def braceSearch (s : Str) : Option (Str × Str × Str) :=
  let pre := s.takeWhile (· ≠ lbrace)
  match s.dropWhile (· ≠ lbrace) with
  | [] => none
  | lb :: tail =>
    match lastSplit rbrace tail with
    | none => none
    | some (mid, post) => some (pre, lb :: mid ++ [rbrace], post)

/-- `re.sub(r"\{.*\}", "", s)` (the input has no newline at this point
of the pipeline, so `.` restrictions do not matter). -/
def braceStrip (s : Str) : Str :=
  match braceSearch s with
  | some (pre, _, post) => pre ++ post
  | none => s

/-! ### `_sanitize_note` (research_agent.py lines 438-484) -/

/-- The fixed placeholder for binary/PDF-looking content. -/
def pdfPlaceholder : Str := "Excerpt not available (binary/pdf content).".data

/-- `re.search(r"%PDF-|<</Filter|stream", s, re.I)`. -/
def containsPdfGarbage (s : Str) : Prop :=
  "%pdf-".data <:+: lowerStr s ∨ "<</filter".data <:+: lowerStr s ∨
    "stream".data <:+: lowerStr s

instance (s : Str) : Decidable (containsPdfGarbage s) := by
  unfold containsPdfGarbage; infer_instance

/-- The `parts` list salvaged from a parsed JSON block: key/value
summaries for `support`, `confidence`, `reason`, `evidence`.  Returns
`none` when `float(j.get("confidence"))` raises, which aborts the whole
salvage attempt. -/
def partsOf (j : JDict) : Option (List Str) :=
  let p1 :=
    match getOpt j.support with
    | some v => ["support: ".data ++ v.pyStr]
    | none => []
  let p3 :=
    match getOpt j.reason with
    | some v => if v.truthy then ["reason: ".data ++ (v.pyStr).take 200] else []
    | none => []
  let p4 :=
    match getOpt j.evidence with
    | some v =>
      if v.truthy then
        let ev := pyStrip ((v.pyStr).map (fun c => if c = '\n' then ' ' else c))
        ["evidence: ".data ++ ev.take 200 ++ (if 200 < ev.length then "...".data else [])]
      else []
    | none => []
  match getOpt j.confidence with
  | some v =>
    match v.toFloat with
    | some q => some (p1 ++ ["confidence: ".data ++ format2 q] ++ p3 ++ p4)
    | none => none
  | none => some (p1 ++ p3 ++ p4)

/-- The whitespace-collapse / truncate / brace-removal / strip tail of
`_sanitize_note`, reached when no JSON block was salvaged. -/
def sanitizeTail (s : Str) : Str :=
  if containsPdfGarbage s then pdfPlaceholder
  else
    let s2 := collapseWs s
    let s3 := if 500 < s2.length then s2.take 500 ++ " ...".data else s2
    pyStrip (braceStrip s3)

/-- Join the salvaged parts if there are any; otherwise (no parts, or
the confidence conversion raised) continue with `sanitizeTail`. -/
def salvageParts (s : Str) : Option (List Str) → Str
  | some [] => sanitizeTail s
  | some parts => joinSemi parts
  | none => sanitizeTail s

/-- Dispatch on the outcome of `json.loads` on the brace block. -/
def salvageDict (s : Str) : Option JDict → Str
  | some j => salvageParts s (partsOf j)
  | none => sanitizeTail s

/-- The JSON-salvage attempt on the fence-stripped text `s`: if a brace
block is found, parses, and yields at least one part, return the joined
parts; in every other case continue with `sanitizeTail`. -/
def sanitizeSalvage (jload : Str → Option JDict) (s : Str) : Str :=
  match braceSearch s with
  | some (_, block, _) => salvageDict s (jload block)
  | none => sanitizeTail s

/-- `_sanitize_note(n)`.  `jload` is the `json.loads` oracle: applied
to the brace-delimited block, it yields the parsed object restricted to
the keys the code reads, or `none` when parsing raises. -/
def sanitize_note (jload : Str → Option JDict) (n : Str) : Str :=
  if n = [] then []
  else sanitizeSalvage jload (stripFences (pyStrip n))

/-! ### An executable `json.loads` for flat objects

`miniJsonParse` parses exactly the JSON subset "one flat object whose
values are escape-free strings, numbers without exponents, booleans or
null"; on that subset it agrees with `json.loads`, and it answers
`none` elsewhere.  It instantiates the parse oracle in concrete
computations. -/

/-- JSON whitespace. -/
def skipJWs (l : Str) : Str :=
  l.dropWhile (fun c => c = ' ' || c = '\t' || c = '\n' || c = '\x0d')

/-- Body of a JSON string after the opening quote; fails on escapes and
control characters (outside the modelled subset). -/
def jStrGo : Str → Option (Str × Str)
  | [] => none
  | c :: rest =>
    if c = '"' then some ([], rest)
    else if c = '\\' then none
    else if c.toNat < 32 then none
    else (jStrGo rest).map (fun p => (c :: p.1, p.2))

/-- A JSON number (no exponent part). -/
def jNumGo (l : Str) : Option (JVal × Str) :=
  let parse := fun (neg : Bool) (u : Str) =>
    let ds := u.takeWhile Char.isDigit
    if ds = [] then none
    else if 1 < ds.length ∧ ds.headI = '0' then none
    else
      let sgn : ℚ := if neg then -1 else 1
      match u.drop ds.length with
      | '.' :: fs =>
        let fds := fs.takeWhile Char.isDigit
        if fds = [] then none
        else
          match fs.drop fds.length with
          | 'e' :: _ => none
          | 'E' :: _ => none
          | rest2 =>
            some (.jnum (sgn * ((digitsVal ds : ℚ) + (digitsVal fds : ℚ) / (10 : ℚ) ^ fds.length)), rest2)
      | 'e' :: _ => none
      | 'E' :: _ => none
      | rest =>
        some (.jint ((if neg then -1 else 1) * (digitsVal ds : ℤ)), rest)
  match l with
  | '-' :: u => parse true u
  | u => parse false u

/-- A JSON value of the modelled subset. -/
def parseJValue (l : Str) : Option (JVal × Str) :=
  match l with
  | '"' :: rest => (jStrGo rest).map (fun p => (.jstr p.1, p.2))
  | 't' :: 'r' :: 'u' :: 'e' :: rest => some (.jbool true, rest)
  | 'f' :: 'a' :: 'l' :: 's' :: 'e' :: rest => some (.jbool false, rest)
  | 'n' :: 'u' :: 'l' :: 'l' :: rest => some (.jnull, rest)
  | u => jNumGo u

/-- Key/value pairs after an opening `{` (or after a `,`). -/
def jPairsGo : Nat → Str → List (Str × JVal) → Option (List (Str × JVal) × Str)
  | 0, _, _ => none
  | fuel + 1, l, acc =>
    match skipJWs l with
    | '"' :: rest =>
      match jStrGo rest with
      | none => none
      | some (key, r1) =>
        match skipJWs r1 with
        | ':' :: r3 =>
          match parseJValue (skipJWs r3) with
          | none => none
          | some (v, r4) =>
            match skipJWs r4 with
            | ',' :: r6 => jPairsGo fuel r6 (acc ++ [(key, v)])
            | c :: r6 => if c = rbrace then some (acc ++ [(key, v)], r6) else none
            | [] => none
        | _ => none
    | _ => none

/-- Python `dict` lookup: the last binding of a repeated key wins. -/
def jLookup (k : Str) (pairs : List (Str × JVal)) : Option JVal :=
  (pairs.reverse.find? (fun p => p.1 == k)).map (fun p => p.2)

def jDictOf (pairs : List (Str × JVal)) : JDict :=
  ⟨jLookup "support".data pairs, jLookup "confidence".data pairs,
   jLookup "reason".data pairs, jLookup "evidence".data pairs⟩

/-- `json.loads` restricted to flat objects; `none` when `json.loads`
raises, returns a non-dict, or the text is outside the subset. -/
def miniJsonParse (s : Str) : Option JDict :=
  match skipJWs s with
  | c :: rest =>
    if c = lbrace then
      match skipJWs rest with
      | c2 :: r2 =>
        if c2 = rbrace then
          if skipJWs r2 = [] then some (jDictOf []) else none
        else
          match jPairsGo (s.length + 1) rest [] with
          | some (pairs, restf) =>
            if skipJWs restf = [] then some (jDictOf pairs) else none
          | none => none
      | [] => none
    else none
  | [] => none

/-! ### `evaluate_claim_vs_excerpt` (research_agent.py lines 286-345) -/

/-- A normalized verifier output as built by `evaluate_claim_vs_excerpt`
and consumed by `aggregate_evaluations`. -/
structure Evaluation where
  support : JVal
  confidence : JVal
  evidence : Str
  reason : Str
  url : Str
  note : Option Str
deriving Repr, DecidableEq

/-- `re.search(r"([0-9]{1,3}(?:\.[0-9]+)?)\s*%?", out)` followed by
`float` on the captured group: the leftmost match starts at the first
digit, takes up to three digits greedily, then an optional fraction. -/
def extractNum (l : Str) : Option ℚ :=
  match l.dropWhile (fun c => !c.isDigit) with
  | [] => none
  | rest =>
    let ds := (rest.takeWhile Char.isDigit).take 3
    match rest.drop ds.length with
    | '.' :: more =>
      let fds := more.takeWhile Char.isDigit
      if fds = [] then some (digitsVal ds : ℚ)
      else some ((digitsVal ds : ℚ) + (digitsVal fds : ℚ) / (10 : ℚ) ^ fds.length)
    | _ => some (digitsVal ds : ℚ)

/-- `evaluate_claim_vs_excerpt(claim, excerpt, url)` with the raw model
response `out` (the result of `llm_call_with_retry`) and the
`json.loads` oracle `jload` (`none` = parsing raised or the result is
not a dict, both of which take the free-text fallback branch). -/
def evaluate_claim_vs_excerpt (jload : Str → Option JDict) (_claim excerpt url out : Str) :
    Evaluation :=
  let dfltEvidence := excerpt.take 300
  if out = [] then
    ⟨.jstr "uncertain".data, .jnum 0, dfltEvidence, [], url,
      some "No response from verifier.".data⟩
  else
    match jload out with
    | some j =>
      let support := j.support.getD (.jstr "uncertain".data)
      let confidence : ℚ :=
        match j.confidence with
        | none => 0
        | some v => if v.truthy then (v.toFloat).getD 0 else 0
      let evidence :=
        match j.evidence with
        | none => dfltEvidence
        | some v => if v.truthy then v.pyStr else dfltEvidence
      let reason :=
        match j.reason with
        | none => []
        | some v => if v.truthy then v.pyStr else []
      let noteParts :=
        ["verifier says: ".data ++ support.pyStr,
         "confidence: ".data ++ format2 confidence] ++
        (if reason ≠ [] then ["reason: ".data ++ reason.take 200] else [])
      ⟨support, .jnum confidence, evidence, reason, url, some (joinSemi noteParts)⟩
    | none =>
      let sanitized := sanitize_note jload out
      let low := lowerStr out
      let support :=
        if "supports".data <:+: low ∧ ¬ ("contradict".data <:+: low) then
          JVal.jstr "supports".data
        else if "contradict".data <:+: low then JVal.jstr "contradicts".data
        else if "neutral".data <:+: low then JVal.jstr "neutral".data
        else JVal.jstr "uncertain".data
      let confidence : ℚ :=
        match extractNum out with
        | some v => max 0 (min 1 (if 1 < v then v / 100 else v))
        | none => 0
      ⟨support, .jnum confidence, dfltEvidence, [], url, some sanitized⟩

/-! ### `aggregate_evaluations` (research_agent.py lines 348-402) -/

/-- The support-label weight table. -/
def mapping (s : Str) : ℚ :=
  if s = "supports".data then 1
  else if s = "neutral".data then 1/2
  else if s = "contradicts".data then -1
  else if s = "uncertain".data then 0
  else 0

/-- `ev.get("support", "uncertain") or "uncertain"`. -/
def evSupportVal (ev : Evaluation) : JVal :=
  if ev.support.truthy then ev.support else .jstr "uncertain".data

/-- `mapping.get(s, 0.0)`: non-string values match no key. -/
def evWeight (ev : Evaluation) : ℚ :=
  match evSupportVal ev with
  | .jstr s => mapping s
  | _ => 0

/-- `float(ev.get("confidence", 0.0) or 0.0)` with the conversion
failure falling back to `0.0`. -/
def evConf (ev : Evaluation) : ℚ :=
  if ev.confidence.truthy then (ev.confidence.toFloat).getD 0 else 0

/-- The signed per-evaluation score `mapping.get(s, 0.0) * conf`. -/
def evScore (ev : Evaluation) : ℚ := evWeight ev * evConf ev

structure BestEvidence where
  url : Str
  excerpt : Str
  confidence : ℚ
deriving Repr, DecidableEq

/-- The best-evidence fold: strict improvement over a `-999` start. -/
def bestOf (evs : List Evaluation) : Option BestEvidence :=
  (evs.foldl
    (fun acc ev =>
      if acc.1 < evScore ev then (evScore ev, some ⟨ev.url, ev.evidence, evConf ev⟩)
      else acc)
    ((-999 : ℚ), (none : Option BestEvidence))).2

/-- `ev.get("note") or ev.get("reason") or ""`. -/
def evRawNote (ev : Evaluation) : Str :=
  match ev.note with
  | some n => if n ≠ [] then n else ev.reason
  | none => ev.reason

/-- The human note appended for one evaluation: the sanitized note when
one is present, else the synthesized `"<label> (confidence X.XX)"`. -/
def evHumanNote (jload : Str → Option JDict) (ev : Evaluation) : Str :=
  let note := evRawNote ev
  if note ≠ [] then sanitize_note jload note
  else (evSupportVal ev).pyStr ++ " (confidence ".data ++ format2 (evConf ev) ++ [')']

/-- Individual truncation of a kept note entry. -/
def trunc400 (t : Str) : Str :=
  if t.length ≤ 400 then t else t.take 400 ++ " ...".data

/-- The note dedup/trim/cap loop (`seen` set, stop once 6 entries). -/
def notesCleanGo : List Str → List Str → Nat → List Str
  | [], _, _ => []
  | n :: rest, seen, fuel =>
    let t := pyStrip n
    if t = [] then notesCleanGo rest seen fuel
    else if t ∈ seen then notesCleanGo rest seen fuel
    else if fuel ≤ 1 then [trunc400 t]
    else trunc400 t :: notesCleanGo rest (t :: seen) (fuel - 1)

structure Verdict where
  claim_id : ℤ
  aggregate_support : Str
  score : ℚ
  best_evidence : Option BestEvidence
  notes : List Str
deriving Repr, DecidableEq

/-- `aggregate_evaluations(claim_id, evaluations)`. -/
def aggregate_evaluations (jload : Str → Option JDict) (claim_id : ℤ)
    (evaluations : List Evaluation) : Verdict :=
  let total := (evaluations.map evScore).sum
  let count := evaluations.length
  let best := bestOf evaluations
  let human_notes := evaluations.map (evHumanNote jload)
  if count = 0 then
    ⟨claim_id, "insufficient".data, 0, none, human_notes⟩
  else
    let raw := total / (count : ℚ)
    let agg := max 0 (min 1 ((raw + 1) / 2))
    let label :=
      if 66/100 < agg then "supports".data
      else if agg < 33/100 then "contradicts".data
      else "mixed".data
    ⟨claim_id, label, pyRound3 agg, best, notesCleanGo human_notes [] 6⟩

/-! ### Claim-id assignment in `run_research_pipeline`
(research_agent.py lines 674-685) -/

/-- A claim as returned by the extractor (or the heuristic fallback),
before the orchestrator assigns its run-wide id.  The `id` field holds
whatever the extractor may already have placed there. -/
structure RawClaim where
  claim : Str
  span : Option Str
  id : Option ℤ
deriving Repr, DecidableEq

/-- The inner loop `for cl in claims: cl["id"] = cid; cid += 1`. -/
def tagClaims : ℤ → List RawClaim → List (ℤ × RawClaim)
  | _, [] => []
  | cid, c :: cs => (cid, c) :: tagClaims (cid + 1) cs

/-- The per-article loop of stage 3: articles without text are skipped,
and every extracted claim of the others receives the next counter
value.  Each article is given as its fetched text together with the
claims `extract_claims_from_text` produced from it. -/
def assignClaimIdsGo : ℤ → List (Str × List RawClaim) → List (ℤ × RawClaim)
  | _, [] => []
  | cid, (text, claims) :: rest =>
    if text = [] then assignClaimIdsGo cid rest
    else tagClaims cid claims ++ assignClaimIdsGo (cid + claims.length) rest

/-- Stage 3 of `run_research_pipeline`: the run-wide claim list with
orchestrator-assigned ids, starting from `cid = 1`. -/
def run_research_pipeline_claims (articles : List (Str × List RawClaim)) :
    List (ℤ × RawClaim) :=
  assignClaimIdsGo 1 articles

/-! ### `fetch_page_text` (research_agent.py lines 154-177) -/

structure FetchMeta where
  url : Str
  title : Option Str
  error : Option Str
deriving Repr, DecidableEq

/-- `fetch_page_text(url)`.  The HTTP layer is an explicit outcome
(`Except`: the error message of the raised exception, or the page
HTML); readability extraction is a collaborator that may fail
(`none`), returning summary HTML and a title on success;
`soupText` is BeautifulSoup's `get_text("\n")`.  The snapshot write is
a swallowed best-effort side effect and has no bearing on the result. -/
def fetch_page_text (url : Str) (http : Except Str Str)
    (readability : Str → Option (Str × Str)) (soupText : Str → Str) :
    Str × FetchMeta :=
  match http with
  | .error e => ([], ⟨url, none, some e⟩)
  | .ok html =>
    match readability html with
    | some (contentHtml, title) => (pyStrip (soupText contentHtml), ⟨url, some title, none⟩)
    | none => (pyStrip (soupText html), ⟨url, none, none⟩)

/-! ### `llm_call_with_retry` (research_agent.py lines 182-214) -/

def MAX_LLM_RETRIES : Nat := 4

def INITIAL_BACKOFF : ℚ := 2

/-- `("429" in msg) or ("quota" in msg) or ("rate limit" in msg)` on the
lowercased exception text. -/
def isRateLimitMsg (e : Str) : Prop :=
  "429".data <:+: lowerStr e ∨ "quota".data <:+: lowerStr e ∨
    "rate limit".data <:+: lowerStr e

instance (e : Str) : Decidable (isRateLimitMsg e) := by
  unfold isRateLimitMsg; infer_instance

/-- The retry loop.  `attempts i` is the outcome of the `i`-th model
call (`ok` = returned text, `error` = exception message); `tb i` is the
traceback text at attempt `i`.  Returns the final string together with
the list of backoff waits performed.  `rem` counts the remaining loop
iterations (`MAX_LLM_RETRIES - attempt`). -/
def retryGo (attempts : Nat → Except Str Str) (tb : Nat → Str) :
    Nat → Nat → Option Str → Str × List ℚ
  | 0, _, lastExc =>
    (match lastExc with
     | some e => "[LLM_ERROR] ".data ++ e
     | none => "[LLM_ERROR] None".data, [])
  | rem + 1, attempt, _ =>
    match attempts attempt with
    | .ok text => (text, [])
    | .error e =>
      let wait := INITIAL_BACKOFF * 2 ^ attempt
      if isRateLimitMsg e then
        let r := retryGo attempts tb rem (attempt + 1) (some e)
        (r.1, wait :: r.2)
      else if 0 < rem then
        let r := retryGo attempts tb rem (attempt + 1) (some e)
        (r.1, wait :: r.2)
      else
        ("[LLM_ERROR] ".data ++ e ++ '\n' :: tb attempt, [])

/-- `llm_call_with_retry(prompt)` as a function of the attempt
outcomes. -/
def llm_call_with_retry (attempts : Nat → Except Str Str) (tb : Nat → Str) :
    Str × List ℚ :=
  retryGo attempts tb MAX_LLM_RETRIES 0 none

/-! ### Concrete fixtures used by witnesses and counterexamples -/

/-- A character that is neither a brace nor a double quote. -/
def cleanChar (c : Char) : Prop := c ≠ lbrace ∧ c ≠ rbrace ∧ c ≠ '"'

instance (c : Char) : Decidable (cleanChar c) := by
  unfold cleanChar; infer_instance

/-- The clamped rescaled average `max(0, min(1, (total/count + 1)/2))`
computed by `aggregate_evaluations` on a nonempty evaluation list. -/
def aggScoreRaw (evaluations : List Evaluation) : ℚ :=
  max 0 (min 1 (((evaluations.map evScore).sum / (evaluations.length : ℚ) + 1) / 2))

/-- The number of claims the stage-3 loop walks over: claims of
articles with nonempty text. -/
def countClaims : List (Str × List RawClaim) → Nat
  | [] => 0
  | (text, claims) :: rest => (if text = [] then 0 else claims.length) + countClaims rest

/-- A minimal evaluation with the given support label and confidence. -/
def mkEval (s : String) (q : ℚ) : Evaluation :=
  ⟨.jstr s.data, .jnum q, [], [], [], none⟩

/-- The C1 counterexample input: one `supports` at confidence 1 and two
`uncertain` at confidence 0, whose clamped rescaled average is `2/3`. -/
def c1ce : List Evaluation :=
  [mkEval "supports" 1, mkEval "uncertain" 0, mkEval "uncertain" 0]

/-- The two long notes of the C7 counterexample: 401 characters each,
differing only in the last character, so they collide after the
400-character truncation. -/
def c7note1 : Str := List.replicate 400 'x' ++ ['a']

def c7note2 : Str := List.replicate 400 'x' ++ ['b']

def c7evals : List Evaluation :=
  [⟨.jstr "supports".data, .jnum 1, [], [], [], some c7note1⟩,
   ⟨.jstr "supports".data, .jnum 1, [], [], [], some c7note2⟩]

/-- Claim C2, counterexample input: a structured verifier response with
out-of-range confidence 5. -/
def c2out : Str := "\x7b\"support\": \"supports\", \"confidence\": 5\x7d".data

/-- The parse of `c2out`. -/
def c2jd : JDict := ⟨some (.jstr "supports".data), some (.jint 5), none, none⟩

/-- The C3 counterexample input: a parseable JSON block followed by a
PDF marker. -/
def c3bad : Str := "\x7b\"support\": \"supports\"\x7d %PDF-".data

/-- The C4 witness input: a clean structured block. -/
def c4good : Str :=
  "\x7b\"support\": \"supports\", \"confidence\": 1, \"reason\": \"matches\"\x7d".data

/-- The parse of `c4good`. -/
def c4goodJd : JDict :=
  ⟨some (.jstr "supports".data), some (.jint 1), some (.jstr "matches".data), none⟩

/-- The parts salvaged from `c4good`. -/
def c4goodParts : List Str :=
  ["support: supports".data, "confidence: ".data ++ format2 ((1 : ℤ) : ℚ),
   "reason: matches".data]

/-- The C4 counterexample input: a block whose `reason` value itself
contains a brace. -/
def c4bad : Str :=
  "\x7b\"support\": \"s\", \"confidence\": 1, \"reason\": \"a \x7bb\x7d\"\x7d".data

/-- The parse of `c4bad`. -/
def c4badJd : JDict :=
  ⟨some (.jstr "s".data), some (.jint 1), some (.jstr "a \x7bb\x7d".data), none⟩

/-- The parts salvaged from `c4bad`. -/
def c4badParts : List Str :=
  ["support: s".data, "confidence: ".data ++ format2 ((1 : ℤ) : ℚ),
   "reason: a \x7bb\x7d".data]

/-! ### List decomposition lemmas -/

theorem prefixAppendCases {α : Type} {p X Y : List α} (h : p <+: X ++ Y) :
    p <+: X ∨ ∃ t, p = X ++ t ∧ t <+: Y := by
  induction X generalizing p with
  | nil => exact Or.inr ⟨p, rfl, by simpa using h⟩
  | cons a X ih =>
    rcases List.prefix_cons_iff.mp (by simpa using h) with h0 | ⟨t, rfl, ht⟩
    · subst h0; exact Or.inl List.nil_prefix
    · rcases ih ht with h1 | ⟨u, rfl, hu⟩
      · obtain ⟨r, hr⟩ := h1
        exact Or.inl ⟨r, by simp [hr]⟩
      · exact Or.inr ⟨u, by simp, hu⟩

theorem infixAppendCases {α : Type} {p X Y : List α} (h : p <:+: X ++ Y) :
    p <:+: X ∨ p <:+: Y ∨
      ∃ s t, p = s ++ t ∧ s ≠ [] ∧ t ≠ [] ∧ s <:+ X ∧ t <+: Y := by
  induction X generalizing p with
  | nil => exact Or.inr (Or.inl (by simpa using h))
  | cons a X ih =>
    rcases List.infix_cons_iff.mp (by simpa using h) with hp | hi
    · rcases List.prefix_cons_iff.mp hp with h0 | ⟨t, rfl, ht⟩
      · subst h0; exact Or.inl List.nil_infix
      · rcases prefixAppendCases ht with h1 | ⟨u, rfl, hu⟩
        · obtain ⟨r, hr⟩ := h1
          exact Or.inl ⟨[], r, by simp [hr]⟩
        · by_cases hu0 : u = []
          · subst hu0
            exact Or.inl (by simp)
          · exact Or.inr (Or.inr ⟨a :: X, u, by simp, by simp, hu0,
              List.suffix_rfl, hu⟩)
    · rcases ih hi with h1 | h2 | ⟨s, t, rfl, hs, ht, hsx, hty⟩
      · exact Or.inl (List.infix_cons h1)
      · exact Or.inr (Or.inl h2)
      · refine Or.inr (Or.inr ⟨s, t, rfl, hs, ht, ?_, hty⟩)
        obtain ⟨w, hw⟩ := hsx
        exact ⟨a :: w, by simp [hw]⟩

/-- A pattern whose characters all fail `q` survives `dropWhile q`. -/
theorem infixOfDropWhile {p l : Str} {q : Char → Bool}
    (hp : ∀ c ∈ p, q c = false) (h : p <:+: l) : p <:+: l.dropWhile q := by
  have h' : p <:+: l.takeWhile q ++ l.dropWhile q := by
    rwa [List.takeWhile_append_dropWhile]
  rcases infixAppendCases h' with h1 | h1 | ⟨s, t, rfl, hs, _, hsx, _⟩
  · cases p with
    | nil => exact List.nil_infix
    | cons c cs =>
      have hc : c ∈ l.takeWhile q := h1.subset (by simp)
      have := List.mem_takeWhile_imp hc
      simp [hp c (by simp)] at this
  · exact h1
  · cases s with
    | nil => exact absurd rfl hs
    | cons c cs =>
      have hc : c ∈ l.takeWhile q := hsx.subset (by simp)
      have := List.mem_takeWhile_imp hc
      simp [hp c (by simp)] at this

/-- A pattern without whitespace survives `pyStrip`. -/
theorem infixOfPyStrip {p l : Str} (hp : ∀ c ∈ p, isPySpace c = false)
    (h : p <:+: l) : p <:+: pyStrip l := by
  unfold pyStrip
  have h1 := infixOfDropWhile hp h
  have h2 : p.reverse <:+: (l.dropWhile isPySpace).reverse :=
    List.reverse_infix.mpr h1
  have h3 := infixOfDropWhile (by simpa using hp) h2
  rw [← List.reverse_infix, List.reverse_reverse]
  exact h3

/-- Peel a leading character that cannot occur in the pattern. -/
theorem infixOfConsElim {p l : Str} {a : Char} (ha : a ∉ p)
    (h : p <:+: a :: l) : p <:+: l := by
  rcases List.infix_cons_iff.mp h with hp | hi
  · rcases List.prefix_cons_iff.mp hp with h0 | ⟨t, rfl, _⟩
    · subst h0; exact List.nil_infix
    · exact absurd (by simp) ha
  · exact hi

/-! ### Fence stripping preserves backtick-free patterns -/

theorem isTripleBT_iff {l : Str} :
    isTripleBT l = true ↔ ∃ r, l = backtick :: backtick :: backtick :: r := by
  rcases l with _ | ⟨c1, _ | ⟨c2, _ | ⟨c3, r⟩⟩⟩
  · simp [isTripleBT]
  · simp [isTripleBT]
  · simp [isTripleBT]
  · constructor
    · intro hb
      simp only [isTripleBT, Bool.and_eq_true, decide_eq_true_eq] at hb
      obtain ⟨⟨h1, h2⟩, h3⟩ := hb
      subst h1; subst h2; subst h3
      exact ⟨r, rfl⟩
    · rintro ⟨r', hr⟩
      have e1 : c1 = backtick := by injection hr
      have hr2 : c2 :: c3 :: r = backtick :: backtick :: r' := by injection hr
      have e2 : c2 = backtick := by injection hr2
      have hr3 : c3 :: r = backtick :: r' := by injection hr2
      have e3 : c3 = backtick := by injection hr3
      subst e1; subst e2; subst e3
      simp [isTripleBT]

theorem fenceOpen_eq_some {l body : Str} (h : fenceOpen l = some body) :
    ∃ als : Str, (∀ a ∈ als, a.isAlpha = true) ∧
      l = backtick :: backtick :: backtick :: (als ++ '\n' :: body) := by
  unfold fenceOpen at h
  by_cases hb : isTripleBT l
  · rw [if_pos hb] at h
    obtain ⟨r, rfl⟩ := isTripleBT_iff.mp hb
    simp only [List.drop] at h
    cases hd : r.dropWhile Char.isAlpha with
    | nil => rw [hd] at h; simp at h
    | cons d ds =>
      rw [hd] at h
      by_cases hdn : d = '\n'
      · rw [if_pos (by simp [hdn])] at h
        simp only [List.tail_cons, Option.some.injEq] at h
        subst h; subst hdn
        refine ⟨r.takeWhile Char.isAlpha, fun a ha => List.mem_takeWhile_imp ha, ?_⟩
        have hr : r.takeWhile Char.isAlpha ++ r.dropWhile Char.isAlpha = r :=
          List.takeWhile_append_dropWhile Char.isAlpha r
        have hsplit : r = r.takeWhile Char.isAlpha ++ '\n' :: ds := by
          rw [← hd]; exact hr.symm
        conv_lhs => rw [hsplit]
      · rw [if_neg (by simp [hdn])] at h; cases h
  · rw [if_neg hb] at h; cases h

theorem findClose_eq_some : ∀ {l content after : Str},
    findClose l = some (content, after) →
    l = content ++ backtick :: backtick :: backtick :: after := by
  intro l
  induction l with
  | nil => intro content after h; simp [findClose] at h
  | cons c rest ih =>
    intro content after h
    unfold findClose at h
    by_cases hb : isTripleBT (c :: rest)
    · rw [if_pos hb] at h
      simp only [Option.some.injEq, Prod.mk.injEq] at h
      obtain ⟨r, hr⟩ := isTripleBT_iff.mp hb
      have hc : c = backtick := by injection hr
      have hrest : rest = backtick :: backtick :: r := by injection hr
      subst hc
      rw [← h.1, ← h.2, hrest]
      simp
    · rw [if_neg hb] at h
      cases hfc : findClose rest with
      | none => rw [hfc] at h; cases h
      | some p =>
        obtain ⟨p1, p2⟩ := p
        rw [hfc] at h
        have h' : c :: p1 = content ∧ p2 = after := by simpa using h
        obtain ⟨h1, h2⟩ := h'
        have hrest := ih hfc
        rw [← h1, ← h2]
        simp [hrest]

theorem fenceOpen_none_of_head {c : Char} {rest : Str} (hc : c ≠ backtick) :
    fenceOpen (c :: rest) = none := by
  unfold fenceOpen
  rw [if_neg]
  intro hb
  obtain ⟨r, hr⟩ := isTripleBT_iff.mp hb
  exact hc (by injection hr)

/-- Prefix preservation: a backtick-free prefix of the input is a
prefix of the fence-stripped output. -/
theorem stripFencesGo_prefix_stable :
    ∀ (fuel : Nat) (p l : Str), backtick ∉ p → p <+: l →
      p <+: stripFencesGo fuel l := by
  intro fuel
  induction fuel with
  | zero => intro p l _ h; simpa [stripFencesGo] using h
  | succ f ih =>
    intro p l hbt h
    cases p with
    | nil => exact List.nil_prefix
    | cons pc pt =>
      cases l with
      | nil => simpa using List.eq_nil_of_prefix_nil h
      | cons c rest =>
        obtain ⟨r, hr⟩ := h
        have hpc : pc = c := by injection hr
        have hpt : pt ++ r = rest := by injection hr
        have hc : c ≠ backtick := by
          rw [← hpc]; exact fun hcc => hbt (by simp [hcc])
        have hf : fenceOpen (c :: rest) = none := fenceOpen_none_of_head hc
        have hout : stripFencesGo (f + 1) (c :: rest) = c :: stripFencesGo f rest := by
          simp [stripFencesGo, hf]
        rw [hout, ← hpc]
        have : pt <+: rest := ⟨r, hpt⟩
        obtain ⟨r', hr'⟩ := ih pt rest (fun hm => hbt (by simp [hm])) this
        exact ⟨r', by simp [← hr']⟩

/-- Infix preservation: a pattern without backticks or newlines that
contains a non-letter character survives fence stripping. -/
theorem stripFencesGo_infix :
    ∀ (fuel : Nat) (p l : Str), backtick ∉ p → '\n' ∉ p →
      (∃ c ∈ p, c.isAlpha = false) → p <:+: l →
      p <:+: stripFencesGo fuel l := by
  intro fuel
  induction fuel with
  | zero => intro p l _ _ _ h; simpa [stripFencesGo] using h
  | succ f ih =>
    intro p l hbt hnl hna h
    cases l with
    | nil =>
      have : p = [] := by simpa using h
      subst this; exact List.nil_infix
    | cons c rest =>
      rcases List.infix_cons_iff.mp h with hp | hi
      · exact (stripFencesGo_prefix_stable (f + 1) p (c :: rest) hbt hp).isInfix
      · cases hfo : fenceOpen (c :: rest) with
        | none =>
          have hout : stripFencesGo (f + 1) (c :: rest) = c :: stripFencesGo f rest := by
            simp [stripFencesGo, hfo]
          rw [hout]
          exact List.infix_cons (ih p rest hbt hnl hna hi)
        | some body =>
          cases hfc : findClose body with
          | none =>
            have hout : stripFencesGo (f + 1) (c :: rest) = c :: stripFencesGo f rest := by
              simp [stripFencesGo, hfo, hfc]
            rw [hout]
            exact List.infix_cons (ih p rest hbt hnl hna hi)
          | some pr =>
            obtain ⟨content, after⟩ := pr
            have hout : stripFencesGo (f + 1) (c :: rest) =
                content ++ stripFencesGo f after := by
              simp [stripFencesGo, hfo, hfc]
            rw [hout]
            obtain ⟨als, hals, hdec⟩ := fenceOpen_eq_some hfo
            have hbody := findClose_eq_some hfc
            have hrest : rest = (backtick :: backtick :: als ++ ['\n']) ++
                (content ++ backtick :: backtick :: backtick :: after) := by
              have h1 : rest = backtick :: backtick :: (als ++ '\n' :: body) := by
                injection hdec
              rw [h1, hbody]; simp
            rw [hrest] at hi
            rcases infixAppendCases hi with h1 | h1 | ⟨s, t, hst, hs, ht, hsx, hty⟩
            · -- the pattern cannot live inside the fence opener
              obtain ⟨c0, hc0, hc0a⟩ := hna
              have hm := h1.subset hc0
              simp only [List.cons_append, List.mem_cons, List.mem_append,
                List.mem_singleton] at hm
              rcases hm with rfl | rfl | hm | rfl | h0
              · exact absurd hc0 hbt
              · exact absurd hc0 hbt
              · rw [hals c0 hm] at hc0a; cases hc0a
              · exact absurd hc0 hnl
              · exact absurd h0 (List.not_mem_nil c0)
            · rcases infixAppendCases h1 with h2 | h2 | ⟨s, t, hst, hs, ht, hsx, hty⟩
              · exact h2.trans (List.prefix_append _ _).isInfix
              · have h3 : p <:+: after := by
                  have e1 := infixOfConsElim (fun hm => hbt hm) h2
                  have e2 := infixOfConsElim (fun hm => hbt hm) e1
                  exact infixOfConsElim (fun hm => hbt hm) e2
                exact (ih p after hbt hnl hna h3).trans
                  (List.suffix_append _ _).isInfix
              · -- a span would put a backtick inside the pattern
                cases t with
                | nil => exact absurd rfl ht
                | cons t0 tt =>
                  obtain ⟨w, hw⟩ := hty
                  have ht0 : t0 = backtick := by injection hw
                  refine absurd ?_ hbt
                  rw [hst, ht0]
                  simp
            · -- a span would put the opener's newline inside the pattern
              cases s with
              | nil => exact absurd rfl hs
              | cons s0 st =>
                have hlast : '\n' ∈ s0 :: st := by
                  have hgl := hsx.getLast (List.cons_ne_nil s0 st)
                  have he : (backtick :: backtick :: als ++ ['\n']).getLast (by simp) = '\n' := by
                    simp
                  rw [he] at hgl
                  rw [← hgl]
                  exact List.getLast_mem _
                refine absurd ?_ hnl
                rw [hst]
                exact List.mem_append.mpr (Or.inl hlast)

/-- A pattern without backticks or newlines containing a non-letter
character survives `stripFences`. -/
theorem infixOfStripFences {p l : Str} (hbt : backtick ∉ p) (hnl : '\n' ∉ p)
    (hna : ∃ c ∈ p, c.isAlpha = false) (h : p <:+: l) : p <:+: stripFences l :=
  stripFencesGo_infix l.length p l hbt hnl hna h

/-! ### Behaviour of `_sanitize_note` -/

theorem sanitizeSalvage_cases (jload : Str → Option JDict) (s : Str) :
    sanitizeSalvage jload s = sanitizeTail s ∨
    ∃ pre block post j parts, braceSearch s = some (pre, block, post) ∧
      jload block = some j ∧ partsOf j = some parts ∧ parts ≠ [] ∧
      sanitizeSalvage jload s = joinSemi parts := by
  unfold sanitizeSalvage
  cases hbs : braceSearch s with
  | none => exact Or.inl rfl
  | some t =>
    obtain ⟨pre, block, post⟩ := t
    dsimp only
    cases hj : jload block with
    | none => exact Or.inl rfl
    | some j =>
      simp only [salvageDict]
      cases hp : partsOf j with
      | none => simp only [salvageParts]; exact Or.inl trivial
      | some parts =>
        cases parts with
        | nil => simp only [salvageParts]; exact Or.inl trivial
        | cons q qs =>
          simp only [salvageParts]
          exact Or.inr ⟨pre, block, post, j, q :: qs, by simp [hbs], by simp [hj],
            by simp [hp], by simp, by simp⟩

/-- A pattern without whitespace, backticks, newlines and with some
non-letter character survives the strip/fence preprocessing of
`_sanitize_note`. -/
theorem infixOfSanitizePre {p n : Str}
    (hws : ∀ c ∈ p, isPySpace c = false) (hbt : backtick ∉ p) (hnl : '\n' ∉ p)
    (hna : ∃ c ∈ p, c.isAlpha = false) (h : p <:+: n) :
    p <:+: stripFences (pyStrip n) :=
  infixOfStripFences hbt hnl hna (infixOfPyStrip hws h)

theorem containsPdfGarbage_of_pdf {s : Str} (h : "%PDF-".data <:+: s) :
    containsPdfGarbage s := by
  left
  have hm := List.IsInfix.map Char.toLower h
  have he : List.map Char.toLower "%PDF-".data = "%pdf-".data := by decide
  rw [he] at hm
  exact hm

theorem containsPdfGarbage_of_filter {s : Str} (h : "<</Filter".data <:+: s) :
    containsPdfGarbage s := by
  right; left
  have hm := List.IsInfix.map Char.toLower h
  have he : List.map Char.toLower "<</Filter".data = "<</filter".data := by decide
  rw [he] at hm
  exact hm

/-! ### Character-level cleanliness of salvaged output -/



theorem cleanChar_of_isDigit {c : Char} (h : c.isDigit = true) : cleanChar c := by
  refine ⟨fun hc => ?_, fun hc => ?_, fun hc => ?_⟩ <;>
    (subst hc; exact absurd h (by decide))

theorem natStrGo_chars : ∀ (fuel n : Nat), ∀ c ∈ natStrGo fuel n, c.isDigit = true := by
  intro fuel
  induction fuel with
  | zero => intro n c hc; simp [natStrGo] at hc
  | succ f ih =>
    intro n c hc
    unfold natStrGo at hc
    by_cases hn : n < 10
    · rw [if_pos hn] at hc
      simp only [List.mem_singleton] at hc
      subst hc
      unfold digitChar
      have h57 : 48 + n < 58 := by omega
      interval_cases n <;> decide
    · rw [if_neg hn] at hc
      rcases List.mem_append.mp hc with hm | hm
      · exact ih _ c hm
      · simp only [List.mem_singleton] at hm
        subst hm
        unfold digitChar
        have : n % 10 < 10 := Nat.mod_lt _ (by omega)
        interval_cases h : n % 10 <;> decide

theorem natStr_chars {n : Nat} : ∀ c ∈ natStr n, c.isDigit = true :=
  natStrGo_chars (n + 1) n

theorem format2_clean (q : ℚ) : ∀ c ∈ format2 q, cleanChar c := by
  intro c hc
  unfold format2 at hc
  have hdigits : ∀ m : Nat, ∀ d ∈ natStr m, cleanChar d :=
    fun m d hd => cleanChar_of_isDigit (natStr_chars d hd)
  set z := roundHalfEven (q * 100)
  have hbody : ∀ d ∈ natStr (z.natAbs / 100) ++ '.' ::
      (if z.natAbs % 100 < 10 then '0' :: natStr (z.natAbs % 100)
       else natStr (z.natAbs % 100)), cleanChar d := by
    intro d hd
    rcases List.mem_append.mp hd with hm | hm
    · exact hdigits _ d hm
    · rcases List.mem_cons.mp hm with rfl | hm
      · decide
      · split_ifs at hm with h10
        · rcases List.mem_cons.mp hm with rfl | hm
          · decide
          · exact hdigits _ d hm
        · exact hdigits _ d hm
  by_cases hz : z < 0
  · rw [if_pos hz] at hc
    rcases List.mem_cons.mp hc with rfl | hm
    · decide
    · exact hbody c hm
  · rw [if_neg hz] at hc
    exact hbody c hc

theorem joinSemi_chars : ∀ (parts : List Str), ∀ c ∈ joinSemi parts,
    (∃ p ∈ parts, c ∈ p) ∨ c = ';' ∨ c = ' ' := by
  intro parts
  induction parts with
  | nil => intro c hc; simp [joinSemi] at hc
  | cons p rest ih =>
    intro c hc
    cases rest with
    | nil =>
      simp only [joinSemi] at hc
      exact Or.inl ⟨p, by simp, hc⟩
    | cons q qs =>
      have hj : joinSemi (p :: q :: qs) = p ++ ';' :: ' ' :: joinSemi (q :: qs) := rfl
      rw [hj] at hc
      rcases List.mem_append.mp hc with hm | hm
      · exact Or.inl ⟨p, by simp, hm⟩
      · rcases List.mem_cons.mp hm with rfl | hm
        · exact Or.inr (Or.inl rfl)
        · rcases List.mem_cons.mp hm with rfl | hm
          · exact Or.inr (Or.inr rfl)
          · rcases ih c hm with ⟨p', hp', hcp⟩ | h
            · exact Or.inl ⟨p', by simp [hp'], hcp⟩
            · exact Or.inr h

theorem pyStrip_subset {l : Str} : ∀ c ∈ pyStrip l, c ∈ l := by
  intro c hc
  unfold pyStrip at hc
  rw [List.mem_reverse] at hc
  have h1 := (List.dropWhile_sublist _).subset hc
  rw [List.mem_reverse] at h1
  exact (List.dropWhile_sublist _).subset h1

/-- Every character of every salvaged part is either clean, or a
character of one of the four field values as the code renders them. -/
theorem partsOf_clean {j : JDict} {parts : List Str}
    (hsup : ∀ v, getOpt j.support = some v → ∀ c ∈ v.pyStr, cleanChar c)
    (hrea : ∀ v, getOpt j.reason = some v → ∀ c ∈ v.pyStr, cleanChar c)
    (hevi : ∀ v, getOpt j.evidence = some v → ∀ c ∈ v.pyStr, cleanChar c)
    (hp : partsOf j = some parts) :
    ∀ p ∈ parts, ∀ c ∈ p, cleanChar c := by
  have hlitS : ∀ c ∈ "support: ".data, cleanChar c := by decide
  have hlitC : ∀ c ∈ "confidence: ".data, cleanChar c := by decide
  have hlitR : ∀ c ∈ "reason: ".data, cleanChar c := by decide
  have hlitE : ∀ c ∈ "evidence: ".data, cleanChar c := by decide
  have hlitD : ∀ c ∈ "...".data, cleanChar c := by decide
  have hp1 : ∀ p ∈ (match getOpt j.support with
      | some v => ["support: ".data ++ v.pyStr]
      | none => ([] : List Str)), ∀ c ∈ p, cleanChar c := by
    cases hs : getOpt j.support with
    | none => simp
    | some v =>
      intro p hp c hc
      dsimp only at hp
      simp only [List.mem_singleton] at hp
      subst hp
      rcases List.mem_append.mp hc with hm | hm
      · exact hlitS c hm
      · exact hsup v hs c hm
  have hp3 : ∀ p ∈ (match getOpt j.reason with
      | some v => if v.truthy then ["reason: ".data ++ (v.pyStr).take 200] else []
      | none => ([] : List Str)), ∀ c ∈ p, cleanChar c := by
    cases hs : getOpt j.reason with
    | none => simp
    | some v =>
      intro p hp c hc
      dsimp only at hp
      by_cases ht : v.truthy
      · rw [if_pos ht] at hp
        simp only [List.mem_singleton] at hp
        subst hp
        rcases List.mem_append.mp hc with hm | hm
        · exact hlitR c hm
        · exact hrea v hs c ((List.take_sublist _ _).subset hm)
      · rw [if_neg ht] at hp
        simp at hp
  have hp4 : ∀ p ∈ (match getOpt j.evidence with
      | some v =>
        if v.truthy then
          let ev := pyStrip ((v.pyStr).map (fun c => if c = '\n' then ' ' else c))
          ["evidence: ".data ++ ev.take 200 ++
            (if 200 < ev.length then "...".data else [])]
        else []
      | none => ([] : List Str)), ∀ c ∈ p, cleanChar c := by
    cases hs : getOpt j.evidence with
    | none => simp
    | some v =>
      intro p hp c hc
      dsimp only at hp
      by_cases ht : v.truthy
      · rw [if_pos ht] at hp
        simp only [List.mem_singleton] at hp
        subst hp
        rcases List.mem_append.mp hc with hm | hm
        · rcases List.mem_append.mp hm with hm2 | hm2
          · exact hlitE c hm2
          · have h1 := pyStrip_subset c ((List.take_sublist _ _).subset hm2)
            rcases List.mem_map.mp h1 with ⟨c0, hc0, hc0e⟩
            by_cases hn : c0 = '\n'
            · rw [if_pos hn] at hc0e; subst hc0e; decide
            · rw [if_neg hn] at hc0e; subst hc0e; exact hevi v hs c0 hc0
        · split_ifs at hm with h200
          · exact hlitD c hm
          · simp at hm
      · rw [if_neg ht] at hp
        simp at hp
  unfold partsOf at hp
  cases hcv : getOpt j.confidence with
  | none =>
    rw [hcv] at hp
    dsimp only at hp
    simp only [Option.some.injEq] at hp
    subst hp
    intro p hpp c hc
    rcases List.mem_append.mp hpp with hm | hm
    · rcases List.mem_append.mp hm with hm2 | hm2
      · exact hp1 p hm2 c hc
      · exact hp3 p hm2 c hc
    · exact hp4 p hm c hc
  | some v =>
    rw [hcv] at hp
    dsimp only at hp
    cases htf : v.toFloat with
    | none => rw [htf] at hp; cases hp
    | some qv =>
      rw [htf] at hp
      simp only [Option.some.injEq] at hp
      subst hp
      intro p hpp c hc
      rcases List.mem_append.mp hpp with hm | hm
      · rcases List.mem_append.mp hm with hm2 | hm2
        · rcases List.mem_append.mp hm2 with hm3 | hm3
          · exact hp1 p hm3 c hc
          · simp only [List.mem_singleton] at hm3
            subst hm3
            rcases List.mem_append.mp hc with hm4 | hm4
            · exact hlitC c hm4
            · exact format2_clean qv c hm4
        · exact hp3 p hm2 c hc
      · exact hp4 p hm c hc


/-! ### Rounding bounds -/

theorem roundHalfEven_le (x : ℚ) : (roundHalfEven x : ℚ) ≤ x + 1/2 := by
  have h0 : (⌊x⌋ : ℚ) ≤ x := Int.floor_le x
  have h1 : x < ⌊x⌋ + 1 := Int.lt_floor_add_one x
  unfold roundHalfEven
  dsimp only
  split_ifs with hc1 hc2 hc3 <;> push_cast <;> linarith

theorem le_roundHalfEven (x : ℚ) : x - 1/2 ≤ (roundHalfEven x : ℚ) := by
  have h0 : (⌊x⌋ : ℚ) ≤ x := Int.floor_le x
  have h1 : x < ⌊x⌋ + 1 := Int.lt_floor_add_one x
  unfold roundHalfEven
  dsimp only
  split_ifs with hc1 hc2 hc3 <;> push_cast <;> linarith

theorem pyRound3_nonneg {x : ℚ} (hx : 0 ≤ x) : 0 ≤ pyRound3 x := by
  unfold pyRound3
  have h := le_roundHalfEven (x * 1000)
  have hgt : (-1 : ℚ) < (roundHalfEven (x * 1000) : ℚ) := by nlinarith
  have h2 : (-1 : ℤ) < roundHalfEven (x * 1000) := by exact_mod_cast hgt
  have h3 : (0 : ℤ) ≤ roundHalfEven (x * 1000) := by omega
  have h4 : (0 : ℚ) ≤ (roundHalfEven (x * 1000) : ℚ) := by exact_mod_cast h3
  positivity

theorem pyRound3_le_one {x : ℚ} (hx : x ≤ 1) : pyRound3 x ≤ 1 := by
  unfold pyRound3
  have h := roundHalfEven_le (x * 1000)
  have h2 : (roundHalfEven (x * 1000) : ℚ) < 1001 := by nlinarith
  have h3 : roundHalfEven (x * 1000) < (1001 : ℤ) := by exact_mod_cast h2
  have h4 : roundHalfEven (x * 1000) ≤ (1000 : ℤ) := by omega
  have h5 : (roundHalfEven (x * 1000) : ℚ) ≤ 1000 := by exact_mod_cast h4
  linarith

/-! ### Behaviour of `aggregate_evaluations` -/


theorem aggregate_eq_empty (jload : Str → Option JDict) (cid : ℤ) :
    aggregate_evaluations jload cid [] =
      ⟨cid, "insufficient".data, 0, none, []⟩ := rfl

theorem aggregate_eq (jload : Str → Option JDict) (cid : ℤ) {evals : List Evaluation}
    (h : evals ≠ []) :
    aggregate_evaluations jload cid evals =
      ⟨cid,
       (if 66/100 < aggScoreRaw evals then "supports".data
        else if aggScoreRaw evals < 33/100 then "contradicts".data
        else "mixed".data),
       pyRound3 (aggScoreRaw evals), bestOf evals,
       notesCleanGo (evals.map (evHumanNote jload)) [] 6⟩ := by
  unfold aggregate_evaluations
  dsimp only
  rw [if_neg (fun hc => h (List.length_eq_zero.mp hc))]
  unfold aggScoreRaw
  rfl

theorem aggScoreRaw_nonneg (evals : List Evaluation) : 0 ≤ aggScoreRaw evals :=
  le_max_left 0 _

theorem aggScoreRaw_le_one (evals : List Evaluation) : aggScoreRaw evals ≤ 1 := by
  unfold aggScoreRaw
  exact max_le (by norm_num) (min_le_left _ _)

/-- The score and label only depend on the multiset of evaluations
through the sum of scores and the count. -/
theorem aggScoreRaw_perm {l l' : List Evaluation} (h : l.Perm l') :
    aggScoreRaw l = aggScoreRaw l' := by
  unfold aggScoreRaw
  rw [(h.map evScore).sum_eq, h.length_eq]

/-! ### Behaviour of the notes dedup/cap loop -/

theorem trunc400_ne_nil {t : Str} (h : t ≠ []) : trunc400 t ≠ [] := by
  unfold trunc400
  split_ifs
  · exact h
  · simp

theorem trunc400_length_le (t : Str) : (trunc400 t).length ≤ 404 := by
  unfold trunc400
  split_ifs with h
  · exact h.trans (by norm_num)
  · simp only [List.length_append, List.length_take]
    have : min 400 t.length ≤ 400 := min_le_left _ _
    simp only [List.length]
    omega

theorem notesCleanGo_spec : ∀ (input seen : List Str) (fuel : Nat),
    ∃ ts : List Str,
      notesCleanGo input seen fuel = ts.map trunc400 ∧ ts.Nodup ∧
      (∀ t ∈ ts, t ∉ seen ∧ t ≠ []) ∧ ts.Sublist (input.map pyStrip) ∧
      ts.length ≤ max fuel 1 := by
  intro input
  induction input with
  | nil =>
    intro seen fuel
    exact ⟨[], rfl, by simp, by simp, by simp, by simp⟩
  | cons n rest ih =>
    intro seen fuel
    unfold notesCleanGo
    dsimp only
    by_cases h1 : pyStrip n = []
    · rw [if_pos h1]
      obtain ⟨ts, he, hnd, hts, hsub, hlen⟩ := ih seen fuel
      exact ⟨ts, he, hnd, hts, hsub.cons _, hlen⟩
    · rw [if_neg h1]
      by_cases h2 : pyStrip n ∈ seen
      · rw [if_pos h2]
        obtain ⟨ts, he, hnd, hts, hsub, hlen⟩ := ih seen fuel
        exact ⟨ts, he, hnd, hts, hsub.cons _, hlen⟩
      · rw [if_neg h2]
        by_cases h3 : fuel ≤ 1
        · rw [if_pos h3]
          refine ⟨[pyStrip n], rfl, by simp, ?_, ?_, by simp⟩
          · intro t ht
            simp only [List.mem_singleton] at ht
            subst ht
            exact ⟨h2, h1⟩
          · simp
        · rw [if_neg h3]
          obtain ⟨ts, he, hnd, hts, hsub, hlen⟩ := ih (pyStrip n :: seen) (fuel - 1)
          refine ⟨pyStrip n :: ts, by simp [he], ?_, ?_, hsub.cons₂ _, ?_⟩
          · rw [List.nodup_cons]
            refine ⟨fun hmem => ?_, hnd⟩
            exact (hts _ hmem).1 (by simp)
          · intro t ht
            rcases List.mem_cons.mp ht with rfl | hm
            · exact ⟨h2, h1⟩
            · have := hts t hm
              exact ⟨fun hseen => this.1 (by simp [hseen]), this.2⟩
          · have hf2 : 2 ≤ fuel := by omega
            have e1 : max fuel 1 = fuel := max_eq_left (by omega)
            have e2 : max (fuel - 1) 1 = fuel - 1 := max_eq_left (by omega)
            rw [e2] at hlen
            rw [e1]
            simp only [List.length_cons]
            omega

/-! ### Behaviour of the orchestrator id assignment -/


theorem tagClaims_fst (cs : List RawClaim) : ∀ (cid : ℤ),
    (tagClaims cid cs).map Prod.fst =
      (List.range cs.length).map (fun i : ℕ => cid + (i : ℤ)) := by
  induction cs with
  | nil => intro cid; simp [tagClaims]
  | cons c cs ih =>
    intro cid
    have hfun : (fun i : ℕ => cid + 1 + (i : ℤ)) =
        fun i : ℕ => cid + ((Nat.succ i : ℕ) : ℤ) := by
      funext i; push_cast; ring
    simp only [tagClaims, List.map_cons, List.length_cons, List.range_succ_eq_map,
      List.map_map, ih (cid + 1)]
    rw [hfun]
    simp [Function.comp]

theorem assignClaimIdsGo_fst (arts : List (Str × List RawClaim)) : ∀ (cid : ℤ),
    (assignClaimIdsGo cid arts).map Prod.fst =
      (List.range (countClaims arts)).map (fun i : ℕ => cid + (i : ℤ)) := by
  induction arts with
  | nil => intro cid; simp [assignClaimIdsGo, countClaims]
  | cons a rest ih =>
    intro cid
    obtain ⟨text, claims⟩ := a
    unfold assignClaimIdsGo countClaims
    by_cases ht : text = []
    · rw [if_pos ht, if_pos ht]
      simpa using ih cid
    · rw [if_neg ht, if_neg ht]
      rw [List.map_append, tagClaims_fst claims cid, ih (cid + claims.length),
        List.range_add, List.map_append, List.map_map]
      congr 1
      apply List.map_congr_left
      intro i _
      simp only [Function.comp_apply]
      push_cast
      ring

/-- When the brace block of a note parses and yields parts, the
sanitized note is exactly the joined field summary. -/
theorem sanitize_note_salvaged {jload : Str → Option JDict} {n pre block post : Str}
    {j : JDict} {parts : List Str} (hne : n ≠ [])
    (hbs : braceSearch (stripFences (pyStrip n)) = some (pre, block, post))
    (hj : jload block = some j) (hp : partsOf j = some parts) (hpne : parts ≠ []) :
    sanitize_note jload n = joinSemi parts := by
  unfold sanitize_note sanitizeSalvage
  rw [if_neg hne, hbs]
  dsimp only
  rw [hj]
  simp only [salvageDict]
  rw [hp]
  cases parts with
  | nil => exact absurd rfl hpne
  | cons q qs => simp [salvageParts]

/-! ### Stepping lemmas for the retry loop -/

theorem retryGo_step (attempts : Nat → Except Str Str) (tb : Nat → Str)
    (rem attempt : Nat) (last : Option Str) (e : Str) (hrem : 0 < rem)
    (he : attempts attempt = .error e) :
    retryGo attempts tb (rem + 1) attempt last =
      ((retryGo attempts tb rem (attempt + 1) (some e)).1,
       (INITIAL_BACKOFF * 2 ^ attempt) ::
         (retryGo attempts tb rem (attempt + 1) (some e)).2) := by
  conv_lhs => rw [retryGo]
  rw [he]
  dsimp only
  by_cases hr : isRateLimitMsg e
  · rw [if_pos hr]
  · rw [if_neg hr, if_pos hrem]

theorem retryGo_last (attempts : Nat → Except Str Str) (tb : Nat → Str)
    (attempt : Nat) (last : Option Str) (e : Str)
    (he : attempts attempt = .error e) :
    retryGo attempts tb 1 attempt last =
      (if isRateLimitMsg e
       then ("[LLM_ERROR] ".data ++ e, [INITIAL_BACKOFF * 2 ^ attempt])
       else ("[LLM_ERROR] ".data ++ e ++ '\n' :: tb attempt, [])) := by
  conv_lhs => rw [retryGo]
  rw [he]
  dsimp only
  by_cases hr : isRateLimitMsg e
  · rw [if_pos hr, if_pos hr]
    rfl
  · rw [if_neg hr, if_neg hr, if_neg (by omega : ¬ (0 : Nat) < 0)]

/-! ## Claim theorems -/



theorem evConf_mkEval (s : String) (q : ℚ) : evConf (mkEval s q) = q := by
  unfold evConf mkEval
  by_cases hq : q = 0
  · subst hq; simp [JVal.truthy, JVal.toFloat]
  · simp [JVal.truthy, JVal.toFloat, hq]

theorem evScore_mkEval (s : String) (q : ℚ) (hs : s.data ≠ []) :
    evScore (mkEval s q) = mapping s.data * q := by
  have hc := evConf_mkEval s q
  unfold evScore
  rw [hc]
  congr 1
  unfold evWeight evSupportVal mkEval
  simp [JVal.truthy, hs]

theorem aggScoreRaw_c1ce : aggScoreRaw c1ce = 2/3 := by
  unfold aggScoreRaw c1ce
  simp only [List.map_cons, List.map_nil, List.sum_cons, List.sum_nil,
    List.length_cons, List.length_nil]
  rw [evScore_mkEval "supports" 1 (by decide), evScore_mkEval "uncertain" 0 (by decide)]
  have h1 : mapping "supports".data = 1 := by simp [mapping]
  have h2 : mapping "uncertain".data = 0 := by simp [mapping]
  rw [h1, h2]
  norm_num

/-- Claim C1, counterexample: the Aggregator's returned score is not
the clamped rescaled average itself — at an average of `1/3` the
clamped rescale is `2/3` but the stored score is the rounded `0.667`. -/
theorem c1_counterexample :
    (aggregate_evaluations miniJsonParse 1 c1ce).score = 667/1000 ∧
    aggScoreRaw c1ce = 2/3 ∧
    (aggregate_evaluations miniJsonParse 1 c1ce).score ≠ aggScoreRaw c1ce := by
  have hne : c1ce ≠ [] := by simp [c1ce]
  have hsc : (aggregate_evaluations miniJsonParse 1 c1ce).score =
      pyRound3 (aggScoreRaw c1ce) := by
    rw [aggregate_eq _ _ hne]
  have hv : (aggregate_evaluations miniJsonParse 1 c1ce).score = 667/1000 := by
    rw [hsc, aggScoreRaw_c1ce]
    norm_num [pyRound3, roundHalfEven]
  refine ⟨hv, aggScoreRaw_c1ce, ?_⟩
  rw [hv, aggScoreRaw_c1ce]
  norm_num

/-- Claim C1 (amended): the Aggregator maps support labels to signed
weights (`supports = 1`, `neutral = 1/2`, `contradicts = -1`,
`uncertain` and unknown labels `= 0`), multiplies by the confidence,
averages, rescales via `(avg+1)/2`, clamps into `[0,1]` **and rounds
the stored score to 3 decimals**; the label thresholds (`> 0.66` →
supports, `< 0.33` → contradicts, else mixed) apply to the clamped
average; an empty list yields `"insufficient"`/`0.0`/no best evidence;
the score is always within `[0,1]`; three `contradicts` at confidence
1.0 give score 0 and label `"contradicts"`. -/
theorem c1_aggregator_scoring (jload : Str → Option JDict) (cid : ℤ)
    (evals : List Evaluation) :
    (evals = [] → aggregate_evaluations jload cid evals =
      ⟨cid, "insufficient".data, 0, none, []⟩) ∧
    (0 ≤ (aggregate_evaluations jload cid evals).score ∧
     (aggregate_evaluations jload cid evals).score ≤ 1) ∧
    (evals ≠ [] →
      (aggregate_evaluations jload cid evals).score = pyRound3 (aggScoreRaw evals) ∧
      (aggregate_evaluations jload cid evals).aggregate_support =
        (if 66/100 < aggScoreRaw evals then "supports".data
         else if aggScoreRaw evals < 33/100 then "contradicts".data
         else "mixed".data)) ∧
    ((aggregate_evaluations jload 7
        (List.replicate 3 (mkEval "contradicts" 1))).score = 0 ∧
     (aggregate_evaluations jload 7
        (List.replicate 3 (mkEval "contradicts" 1))).aggregate_support =
       "contradicts".data) := by
  refine ⟨?_, ?_, ?_, ?_⟩
  · intro h; subst h; exact aggregate_eq_empty jload cid
  · by_cases h : evals = []
    · subst h
      rw [aggregate_eq_empty]
      norm_num
    · rw [aggregate_eq jload cid h]
      exact ⟨pyRound3_nonneg (aggScoreRaw_nonneg evals),
        pyRound3_le_one (aggScoreRaw_le_one evals)⟩
  · intro h
    rw [aggregate_eq jload cid h]
    exact ⟨rfl, rfl⟩
  · have h3 : (List.replicate 3 (mkEval "contradicts" 1)) ≠ ([] : List Evaluation) := by
      simp
    rw [aggregate_eq jload 7 h3]
    have hraw : aggScoreRaw (List.replicate 3 (mkEval "contradicts" 1)) = 0 := by
      rw [show List.replicate 3 (mkEval "contradicts" 1) =
        [mkEval "contradicts" 1, mkEval "contradicts" 1, mkEval "contradicts" 1] from rfl]
      unfold aggScoreRaw
      simp only [List.map_cons, List.map_nil, List.sum_cons, List.sum_nil,
        List.length_cons, List.length_nil]
      rw [evScore_mkEval "contradicts" 1 (by decide)]
      have h : mapping "contradicts".data = -1 := by simp [mapping]
      rw [h]
      norm_num
    rw [hraw]
    dsimp only
    refine ⟨by norm_num [pyRound3, roundHalfEven], ?_⟩
    rw [if_neg (by norm_num), if_pos (by norm_num)]

/-- Claim C1, witness: the theorem applied at concrete inputs. -/
theorem c1_witness :
    aggregate_evaluations miniJsonParse 5 [] = ⟨5, "insufficient".data, 0, none, []⟩ ∧
    (aggregate_evaluations miniJsonParse 1 c1ce).score = pyRound3 (aggScoreRaw c1ce) :=
  ⟨(c1_aggregator_scoring miniJsonParse 5 []).1 rfl,
   ((c1_aggregator_scoring miniJsonParse 1 c1ce).2.2.1 (by decide)).1⟩

/-- Claim C6: aggregation is order-independent — permuting the
evaluations yields the same label and the same score. -/
theorem c6_aggregation_order_independent (jload : Str → Option JDict) (cid : ℤ)
    (l l' : List Evaluation) (h : l.Perm l') :
    (aggregate_evaluations jload cid l).aggregate_support =
      (aggregate_evaluations jload cid l').aggregate_support ∧
    (aggregate_evaluations jload cid l).score =
      (aggregate_evaluations jload cid l').score := by
  by_cases hl : l = []
  · subst hl
    have hl' : l' = [] := h.symm.eq_nil
    subst hl'
    exact ⟨rfl, rfl⟩
  · have hl' : l' ≠ [] := fun hc => hl (by subst hc; exact h.eq_nil)
    rw [aggregate_eq jload cid hl, aggregate_eq jload cid hl', aggScoreRaw_perm h]
    exact ⟨rfl, rfl⟩

/-- Claim C6, witness: a concrete two-element permutation. -/
theorem c6_witness :
    (aggregate_evaluations miniJsonParse 1
        [mkEval "supports" 1, mkEval "contradicts" (1/2)]).aggregate_support =
      (aggregate_evaluations miniJsonParse 1
        [mkEval "contradicts" (1/2), mkEval "supports" 1]).aggregate_support ∧
    (aggregate_evaluations miniJsonParse 1
        [mkEval "supports" 1, mkEval "contradicts" (1/2)]).score =
      (aggregate_evaluations miniJsonParse 1
        [mkEval "contradicts" (1/2), mkEval "supports" 1]).score :=
  c6_aggregation_order_independent miniJsonParse 1 _ _
    (List.Perm.swap (mkEval "contradicts" (1/2)) (mkEval "supports" 1) [])




/-- Claim C7, counterexample: two distinct notes sharing a 400-char
prefix produce two equal entries after truncation, so the notes list is
not duplicate-free as stated. -/
theorem c7_counterexample :
    ¬ (((aggregate_evaluations miniJsonParse 1 c7evals).notes.map pyStrip).Nodup) := by
  set_option maxRecDepth 10000 in decide

/-- Claim C7 (amended): the notes of a Verdict are the image under the
400-character truncation of a duplicate-free, first-seen-ordered
selection of the trimmed sanitized notes; there are at most 6 entries,
none empty, each at most 404 characters (400 plus the ellipsis marker
`" ..."`).  Deduplication happens before truncation, so entries coming
from distinct over-long notes with a common 400-character prefix may
coincide. -/
theorem c7_notes_invariants (jload : Str → Option JDict) (cid : ℤ)
    (evals : List Evaluation) :
    ∃ ts : List Str,
      (aggregate_evaluations jload cid evals).notes = ts.map trunc400 ∧
      ts.Nodup ∧ (∀ t ∈ ts, t ≠ []) ∧
      ts.Sublist ((evals.map (evHumanNote jload)).map pyStrip) ∧
      (aggregate_evaluations jload cid evals).notes.length ≤ 6 ∧
      (∀ e ∈ (aggregate_evaluations jload cid evals).notes,
        e ≠ [] ∧ e.length ≤ 404) := by
  by_cases h : evals = []
  · subst h
    rw [aggregate_eq_empty]
    exact ⟨[], rfl, by simp, by simp, by simp, by simp, by simp⟩
  · rw [aggregate_eq jload cid h]
    obtain ⟨ts, he, hnd, hts, hsub, hlen⟩ :=
      notesCleanGo_spec (evals.map (evHumanNote jload)) [] 6
    refine ⟨ts, he, hnd, fun t ht => (hts t ht).2, hsub, ?_, ?_⟩
    · rw [he]
      simp only [List.length_map]
      exact hlen.trans (by norm_num)
    · intro e hee
      rw [he] at hee
      rcases List.mem_map.mp hee with ⟨t, htm, rfl⟩
      exact ⟨trunc400_ne_nil (hts t htm).2, trunc400_length_le t⟩

/-- Claim C10: for a nonempty evaluation list the stored score is the
clamped rescaled average rounded to 3 decimal places, hence an exact
multiple of 0.001. -/
theorem c10_score_rounded (jload : Str → Option JDict) (cid : ℤ)
    (evals : List Evaluation) (h : evals ≠ []) :
    (aggregate_evaluations jload cid evals).score = pyRound3 (aggScoreRaw evals) ∧
    ∃ z : ℤ, (aggregate_evaluations jload cid evals).score = (z : ℚ) / 1000 := by
  rw [aggregate_eq jload cid h]
  exact ⟨rfl, ⟨roundHalfEven (aggScoreRaw evals * 1000), rfl⟩⟩

/-- Claim C10, witness. -/
theorem c10_witness :
    (aggregate_evaluations miniJsonParse 1 c1ce).score = pyRound3 (aggScoreRaw c1ce) ∧
    ∃ z : ℤ, (aggregate_evaluations miniJsonParse 1 c1ce).score = (z : ℚ) / 1000 :=
  c10_score_rounded miniJsonParse 1 c1ce (by decide)



/-- Claim C2, counterexample: in the structured branch the confidence
value is **not** clamped into `[0,1]` — a parsed confidence of 5 is
stored as 5. -/
theorem c2_counterexample :
    (evaluate_claim_vs_excerpt miniJsonParse [] [] [] c2out).confidence =
      .jnum 5 ∧ ¬ ((5 : ℚ) ≤ 1) := by
  refine ⟨?_, by norm_num⟩
  have hj : miniJsonParse c2out = some c2jd := by decide
  unfold evaluate_claim_vs_excerpt
  rw [if_neg (by decide), hj]
  rfl

/-- Claim C2 (amended): when the raw response parses as a dict, the
fields are mapped onto the Evaluation with defaults for missing fields
(support → `"uncertain"`, confidence → `0.0`) and the confidence
converted by `float` **without clamping** (conversion failures and
falsy values fall back to `0.0`); when it does not parse, support comes
from keywords and a numeric confidence is extracted with values > 1
divided by 100 — the free text
`"This supports the claim, 85% confidence"` yields support
`"supports"` and confidence `0.85`. -/
theorem c2_evaluator_normalization (jload : Str → Option JDict)
    (claim excerpt url : Str) :
    (∀ out j, out ≠ [] → jload out = some j →
      (evaluate_claim_vs_excerpt jload claim excerpt url out).support =
        j.support.getD (.jstr "uncertain".data) ∧
      (evaluate_claim_vs_excerpt jload claim excerpt url out).confidence =
        .jnum (match j.confidence with
               | none => 0
               | some v => if v.truthy then (v.toFloat).getD 0 else 0) ∧
      (evaluate_claim_vs_excerpt jload claim excerpt url out).evidence =
        (match j.evidence with
         | none => excerpt.take 300
         | some v => if v.truthy then v.pyStr else excerpt.take 300) ∧
      (evaluate_claim_vs_excerpt jload claim excerpt url out).reason =
        (match j.reason with
         | none => []
         | some v => if v.truthy then v.pyStr else [])) ∧
    (jload "This supports the claim, 85% confidence".data = none →
      (evaluate_claim_vs_excerpt jload claim excerpt url
        "This supports the claim, 85% confidence".data).support =
          .jstr "supports".data ∧
      (evaluate_claim_vs_excerpt jload claim excerpt url
        "This supports the claim, 85% confidence".data).confidence =
          .jnum (85/100)) := by
  constructor
  · intro out j hne hj
    unfold evaluate_claim_vs_excerpt
    rw [if_neg hne, hj]
    exact ⟨rfl, rfl, rfl, rfl⟩
  · intro hn
    unfold evaluate_claim_vs_excerpt
    rw [if_neg (by decide), hn]
    dsimp only
    constructor
    · rw [if_pos (by decide)]
    · have he : extractNum "This supports the claim, 85% confidence".data =
          some ((85 : ℕ) : ℚ) := by decide
      rw [he]
      dsimp only
      congr 1
      norm_num

/-- Claim C2, witness. -/
theorem c2_witness :
    (evaluate_claim_vs_excerpt miniJsonParse [] [] [] c2out).support =
      c2jd.support.getD (.jstr "uncertain".data) ∧
    (evaluate_claim_vs_excerpt miniJsonParse [] [] []
      "This supports the claim, 85% confidence".data).support =
        .jstr "supports".data :=
  ⟨((c2_evaluator_normalization miniJsonParse [] [] []).1 c2out c2jd
      (by decide) (by decide)).1,
   ((c2_evaluator_normalization miniJsonParse [] [] []).2 (by decide)).1⟩

/-- Claim C3 (amended): a note containing `%PDF-` or `<</Filter` is
sanitized to the fixed placeholder — unless a brace-delimited block of
the note is successfully salvaged into structured fields, in which case
the joined field summary (still not the raw input) is returned
instead. -/
theorem c3_sanitize_pdf (jload : Str → Option JDict) (n : Str)
    (h : "%PDF-".data <:+: n ∨ "<</Filter".data <:+: n) :
    sanitize_note jload n = pdfPlaceholder ∨
    ∃ pre block post j parts,
      braceSearch (stripFences (pyStrip n)) = some (pre, block, post) ∧
      jload block = some j ∧ partsOf j = some parts ∧ parts ≠ [] ∧
      sanitize_note jload n = joinSemi parts := by
  have hne : n ≠ [] := by
    rcases h with h | h
    · exact h.ne_nil (by decide)
    · exact h.ne_nil (by decide)
  have hpdf : containsPdfGarbage (stripFences (pyStrip n)) := by
    rcases h with h | h
    · exact containsPdfGarbage_of_pdf
        (infixOfSanitizePre (by decide) (by decide) (by decide) (by decide) h)
    · exact containsPdfGarbage_of_filter
        (infixOfSanitizePre (by decide) (by decide) (by decide) (by decide) h)
  unfold sanitize_note
  rw [if_neg hne]
  rcases sanitizeSalvage_cases jload (stripFences (pyStrip n)) with heq |
    ⟨pre, block, post, j, parts, hbs, hj, hp, hpne, heq⟩
  · left
    rw [heq]
    unfold sanitizeTail
    rw [if_pos hpdf]
  · right
    exact ⟨pre, block, post, j, parts, hbs, hj, hp, hpne, heq⟩

/-- Claim C3, witness: a plain binary-looking note (no braces) maps to
the placeholder. -/
theorem c3_witness :
    sanitize_note miniJsonParse "garbled %PDF-1.4 output".data = pdfPlaceholder ∨
    ∃ pre block post j parts,
      braceSearch (stripFences (pyStrip "garbled %PDF-1.4 output".data)) =
        some (pre, block, post) ∧
      miniJsonParse block = some j ∧ partsOf j = some parts ∧ parts ≠ [] ∧
      sanitize_note miniJsonParse "garbled %PDF-1.4 output".data = joinSemi parts :=
  c3_sanitize_pdf miniJsonParse "garbled %PDF-1.4 output".data (Or.inl (by decide))


/-- Claim C3, counterexample: a string containing `%PDF-` whose brace
block parses is *not* mapped to the placeholder — the salvaged summary
is returned instead. -/
theorem c3_counterexample :
    ("%PDF-".data <:+: c3bad) ∧
    sanitize_note miniJsonParse c3bad = "support: supports".data ∧
    sanitize_note miniJsonParse c3bad ≠ pdfPlaceholder := by
  refine ⟨by decide, by decide, by decide⟩

/-- Claim C4 (amended): when the brace block of a note parses with
`support`, `confidence` and `reason` fields (and the field values
themselves contain no braces or double quotes), the sanitized output is
the `key: value` summary of the fields — no raw braces and no quoted
key names survive. -/
theorem c4_sanitize_no_raw_json (jload : Str → Option JDict) (n : Str)
    {pre block post : Str} {j : JDict} {parts : List Str}
    (hbs : braceSearch (stripFences (pyStrip n)) = some (pre, block, post))
    (hj : jload block = some j)
    (hsup : ∀ v, getOpt j.support = some v → ∀ c ∈ v.pyStr, cleanChar c)
    (hrea : ∀ v, getOpt j.reason = some v → ∀ c ∈ v.pyStr, cleanChar c)
    (hevi : ∀ v, getOpt j.evidence = some v → ∀ c ∈ v.pyStr, cleanChar c)
    (hp : partsOf j = some parts) (hpne : parts ≠ []) :
    sanitize_note jload n = joinSemi parts ∧
    (∀ c ∈ sanitize_note jload n, c ≠ lbrace ∧ c ≠ rbrace) ∧
    ¬ ("\"support\"".data <:+: sanitize_note jload n) ∧
    ¬ ("\"confidence\"".data <:+: sanitize_note jload n) ∧
    ¬ ("\"reason\"".data <:+: sanitize_note jload n) := by
  have hne : n ≠ [] := by
    intro hc
    subst hc
    rw [show braceSearch (stripFences (pyStrip ([] : Str))) = none from rfl] at hbs
    cases hbs
  have heq : sanitize_note jload n = joinSemi parts :=
    sanitize_note_salvaged hne hbs hj hp hpne
  have hclean : ∀ c ∈ sanitize_note jload n, cleanChar c := by
    rw [heq]
    intro c hc
    rcases joinSemi_chars parts c hc with ⟨p, hpm, hcp⟩ | h | h
    · exact partsOf_clean hsup hrea hevi hp p hpm c hcp
    · subst h; decide
    · subst h; decide
  refine ⟨heq, fun c hc => ⟨(hclean c hc).1, (hclean c hc).2.1⟩, ?_, ?_, ?_⟩ <;>
    · intro hinf
      have hq : '"' ∈ sanitize_note jload n := hinf.subset (by decide)
      exact (hclean _ hq).2.2 rfl




/-- Claim C4, witness. -/
theorem c4_witness :
    (∀ c ∈ sanitize_note miniJsonParse c4good, c ≠ lbrace ∧ c ≠ rbrace) ∧
    ¬ ("\"support\"".data <:+: sanitize_note miniJsonParse c4good) := by
  have h := @c4_sanitize_no_raw_json miniJsonParse c4good [] c4good [] c4goodJd
    c4goodParts (by decide) (by decide)
    (by intro v hv; injection hv with hv2; subst hv2; decide)
    (by intro v hv; injection hv with hv2; subst hv2; decide)
    (by intro v hv; simp [c4goodJd, getOpt] at hv)
    rfl (by simp [c4goodParts])
  exact ⟨h.2.1, h.2.2.1⟩




/-- Claim C4, counterexample: a brace inside the `reason` value
survives into the sanitized output, so the output is not brace-free as
stated. -/
theorem c4_counterexample : lbrace ∈ sanitize_note miniJsonParse c4bad := by
  have he : sanitize_note miniJsonParse c4bad = joinSemi c4badParts :=
    @sanitize_note_salvaged miniJsonParse c4bad [] c4bad [] c4badJd c4badParts
      (by decide) (by decide) (by decide) rfl (by simp [c4badParts])
  rw [he]
  show lbrace ∈ "support: s".data ++ ';' :: ' ' ::
    ("confidence: ".data ++ format2 ((1 : ℤ) : ℚ) ++ ';' :: ' ' ::
      "reason: a \x7bb\x7d".data)
  refine List.mem_append.mpr (Or.inr ?_)
  refine List.mem_cons.mpr (Or.inr (List.mem_cons.mpr (Or.inr ?_)))
  refine List.mem_append.mpr (Or.inr ?_)
  refine List.mem_cons.mpr (Or.inr (List.mem_cons.mpr (Or.inr ?_)))
  decide

/-- Claim C5: the orchestrator assigns the run-wide claim ids itself —
whatever ids the extractor placed on the claims, the resulting id
sequence is exactly `1, 2, 3, …` over all claims of articles with text,
hence unique and consecutively assigned across the whole run. -/
theorem c5_claim_ids (articles : List (Str × List RawClaim)) :
    (run_research_pipeline_claims articles).map Prod.fst =
      (List.range (countClaims articles)).map (fun i : ℕ => 1 + (i : ℤ)) ∧
    ((run_research_pipeline_claims articles).map Prod.fst).Nodup := by
  have h : (run_research_pipeline_claims articles).map Prod.fst =
      (List.range (countClaims articles)).map (fun i : ℕ => 1 + (i : ℤ)) :=
    assignClaimIdsGo_fst articles 1
  refine ⟨h, ?_⟩
  rw [h]
  refine List.Nodup.map ?_ (List.nodup_range _)
  intro a b hab
  have := add_left_cancel hab
  exact_mod_cast this

theorem fetch_page_text_error (url e : Str) (readability : Str → Option (Str × Str))
    (soupText : Str → Str) :
    fetch_page_text url (.error e) readability soupText =
      ([], ⟨url, none, some e⟩) := rfl

theorem fetch_page_text_ok (url html : Str) (readability : Str → Option (Str × Str))
    (soupText : Str → Str) :
    fetch_page_text url (.ok html) readability soupText =
      (match readability html with
       | some (contentHtml, title) =>
         (pyStrip (soupText contentHtml), ⟨url, some title, none⟩)
       | none => (pyStrip (soupText html), ⟨url, none, none⟩)) := rfl

/-- Claim C8: the Fetcher is total over every HTTP outcome — on
failure it returns empty text with an error descriptor naming the URL;
on success it returns stripped extracted text, falling back to
whole-page extraction when readability fails. -/
theorem c8_fetch_never_raises (url : Str) (http : Except Str Str)
    (readability : Str → Option (Str × Str)) (soupText : Str → Str) :
    ((fetch_page_text url http readability soupText).2.url = url) ∧
    (∀ e, http = .error e →
      fetch_page_text url http readability soupText = ([], ⟨url, none, some e⟩)) ∧
    (∀ html, http = .ok html →
      (fetch_page_text url http readability soupText).2.error = none ∧
      (readability html = none →
        fetch_page_text url http readability soupText =
          (pyStrip (soupText html), ⟨url, none, none⟩)) ∧
      (∀ content title, readability html = some (content, title) →
        fetch_page_text url http readability soupText =
          (pyStrip (soupText content), ⟨url, some title, none⟩))) := by
  refine ⟨?_, ?_, ?_⟩
  · cases http with
    | error e => rfl
    | ok html =>
      rw [fetch_page_text_ok]
      cases hr : readability html with
      | none => rfl
      | some ct => obtain ⟨c, t⟩ := ct; rfl
  · intro e he
    subst he
    rfl
  · intro html hh
    subst hh
    refine ⟨?_, fun hr => ?_, fun content title hr => ?_⟩
    · rw [fetch_page_text_ok]
      cases hr : readability html with
      | none => rfl
      | some ct => obtain ⟨c, t⟩ := ct; rfl
    · rw [fetch_page_text_ok, hr]
    · rw [fetch_page_text_ok, hr]

/-- Claim C8, witness. -/
theorem c8_witness :
    fetch_page_text "u".data (.error "connection timed out".data)
      (fun _ => none) id =
      ([], ⟨"u".data, none, some "connection timed out".data⟩) :=
  (c8_fetch_never_raises "u".data (.error "connection timed out".data)
    (fun _ => none) id).2.1 "connection timed out".data rfl

/-- Claim C9: when every model-call attempt raises, the retry wrapper
performs exactly `MAX_LLM_RETRIES = 4` attempts with exponential
backoff waits `2, 4, 8` (plus a final `16` when the last error text
looks rate-limited, which is treated like any other transient error),
and returns a sentinel string prefixed `"[LLM_ERROR]"` embedding the
last failure instead of raising. -/
theorem c9_retry_exhaustion (attempts : Nat → Except Str Str) (tb : Nat → Str)
    (errs : Nat → Str) (h : ∀ i, i < 4 → attempts i = .error (errs i)) :
    "[LLM_ERROR]".data <+: (llm_call_with_retry attempts tb).1 ∧
    errs 3 <:+: (llm_call_with_retry attempts tb).1 ∧
    llm_call_with_retry attempts tb =
      (if isRateLimitMsg (errs 3)
       then ("[LLM_ERROR] ".data ++ errs 3, [2, 4, 8, 16])
       else ("[LLM_ERROR] ".data ++ errs 3 ++ '\n' :: tb 3, [2, 4, 8])) := by
  have heq : llm_call_with_retry attempts tb =
      (if isRateLimitMsg (errs 3)
       then ("[LLM_ERROR] ".data ++ errs 3, [2, 4, 8, 16])
       else ("[LLM_ERROR] ".data ++ errs 3 ++ '\n' :: tb 3, [2, 4, 8])) := by
    unfold llm_call_with_retry
    rw [show MAX_LLM_RETRIES = 3 + 1 from rfl]
    rw [retryGo_step attempts tb 3 0 none (errs 0) (by norm_num) (h 0 (by norm_num))]
    rw [show (3 : Nat) = 2 + 1 from rfl]
    rw [retryGo_step attempts tb 2 1 (some (errs 0)) (errs 1) (by norm_num)
      (h 1 (by norm_num))]
    rw [show (2 : Nat) = 1 + 1 from rfl]
    rw [retryGo_step attempts tb 1 2 (some (errs 1)) (errs 2) (by norm_num)
      (h 2 (by norm_num))]
    rw [retryGo_last attempts tb 3 (some (errs 2)) (errs 3) (h 3 (by norm_num))]
    by_cases hr : isRateLimitMsg (errs 3)
    · rw [if_pos hr, if_pos hr]
      refine Prod.ext rfl ?_
      norm_num [INITIAL_BACKOFF]
    · rw [if_neg hr, if_neg hr]
      refine Prod.ext rfl ?_
      norm_num [INITIAL_BACKOFF]
  refine ⟨?_, ?_, heq⟩
  · rw [heq]
    by_cases hr : isRateLimitMsg (errs 3)
    · rw [if_pos hr]
      exact (show "[LLM_ERROR]".data <+: "[LLM_ERROR] ".data by decide).trans
        (List.prefix_append _ _)
    · rw [if_neg hr]
      have h1 : "[LLM_ERROR] ".data ++ errs 3 ++ '\n' :: tb 3 =
          "[LLM_ERROR] ".data ++ (errs 3 ++ '\n' :: tb 3) := by simp
      exact (show "[LLM_ERROR]".data <+: "[LLM_ERROR] ".data by decide).trans
        (h1 ▸ List.prefix_append _ _)
  · rw [heq]
    by_cases hr : isRateLimitMsg (errs 3)
    · rw [if_pos hr]
      exact (List.suffix_append _ _).isInfix
    · rw [if_neg hr]
      exact ⟨"[LLM_ERROR] ".data, '\n' :: tb 3, by simp⟩

/-- Claim C9, witness: a run where every attempt fails with a
rate-limited error text. -/
theorem c9_witness :
    llm_call_with_retry (fun _ => .error "HTTP 429 too many requests".data)
      (fun _ => "trace".data) =
      ("[LLM_ERROR] HTTP 429 too many requests".data, [2, 4, 8, 16]) := by
  have h := (c9_retry_exhaustion (fun _ => .error "HTTP 429 too many requests".data)
    (fun _ => "trace".data) (fun _ => "HTTP 429 too many requests".data)
    (fun i _ => rfl)).2.2
  rw [if_pos (by decide)] at h
  exact h

end ResearchAgent
